import Mathlib

/-!
Verification of the CowHorseDetector metrics engine against its specification.

The definitions below are a shallow embedding of the Rust sources:

* `src/metrics.rs` (the deduplicated module, after-hours cutoff 18):
  `compute_metrics`, `longest_streak`, `severity_score`, `severity_label`,
  `percentage`, and the data records.
* `src/alias.rs`: `parse_aliases`.
* `src/time_filter.rs`: `parse_time_filter`, `try_parse_relative`.

Modelling conventions:

* `f64` is modelled as the exact rationals `ℚ`.  Every number the engine
  produces is a small integer, a quotient of two small naturals, or a sum of
  such products; no claim under test concerns rounding behaviour of binary
  floating point.  `NaN` cannot arise in the model, matching the spec's remark
  that `NaN` ratios cannot arise since author totals are at least 1.
* `chrono::NaiveDate` is modelled as the integer day number `ℤ` (days since
  1970-01-01, which was a Thursday, so weekday index `d % 7` has Saturday = 2
  and Sunday = 3).  `DateTime<FixedOffset>` is modelled by the local calendar
  fields the engine reads (`date`, `hour`) plus an `instant` (seconds) used
  only for the `analysis_start` and `analysis_end` min and max.
* `BTreeMap<NaiveDate, DayStats>` is modelled as an association list sorted
  strictly ascending by key; `HashMap<String, _>` as an association list in
  first-insertion order (its iteration order is only observable up to the
  sorts that follow it).
* Strings handled character-wise (`alias.rs`, `time_filter.rs`) are modelled
  as `List Char`.  Rust's `str::trim` strips Unicode whitespace, modelled by
  `rustIsWhitespace` (the Unicode `White_Space` set).  Byte-based operations
  (`str::len`, `str::split_at`) are modelled through the UTF-8 byte lengths
  `utf8Len`/`byteLen`; `split_at` panics on a byte index that is not a char
  boundary, aborting the program, modelled by the `Crashable.crash` result.
-/

namespace CowHorse

/-- A commit record as read by the engine: the author string and the local
calendar fields of its timestamp (day number and hour in the commit's own
offset), plus the instant used for `analysis_start` and `analysis_end`. -/
structure Commit where
  author : String
  date : ℤ
  hour : ℕ
  instant : ℤ
deriving DecidableEq, Repr

/-- `matches!(weekday, Weekday::Sat | Weekday::Sun)` for the local date.
Day 0 (1970-01-01) is a Thursday, so Saturday has index 2 and Sunday 3. -/
def is_weekend (date : ℤ) : Bool :=
  decide (date % 7 = 2) || decide (date % 7 = 3)

/-- `hour < 10 || hour >= 18` (src/metrics.rs line 94). -/
def is_after_hours (hour : ℕ) : Bool :=
  decide (hour < 10) || decide (18 ≤ hour)

/-- `hour < 6 || hour >= 23` (src/metrics.rs line 95). -/
def is_night (hour : ℕ) : Bool :=
  decide (hour < 6) || decide (23 ≤ hour)

/-- Per-day accumulator (src/metrics.rs `DayStats`). -/
structure DayStats where
  total_commits : ℕ
  after_hours_commits : ℕ
deriving DecidableEq, Repr

/-- Per-author accumulator (src/metrics.rs `AuthorAccumulator`). -/
structure AuthorAccumulator where
  total_commits : ℕ
  after_hours_commits : ℕ
  weekend_commits : ℕ
  night_commits : ℕ
deriving DecidableEq, Repr

/-- Ranked-list entry (src/metrics.rs `AuthorSummary`). -/
structure AuthorSummary where
  name : String
  total_commits : ℕ
  after_hours_commits : ℕ
  weekend_commits : ℕ
  night_commits : ℕ
  after_hours_ratio : ℚ
deriving DecidableEq, Repr

/-- src/metrics.rs `BusiestDay`. -/
structure BusiestDay where
  date : ℤ
  total_commits : ℕ
  after_hours_commits : ℕ
deriving DecidableEq, Repr

/-- src/metrics.rs `RepoMetrics` (alias rules kept as plain pairs). -/
structure RepoMetrics where
  repo_path : String
  analysis_start : Option ℤ
  analysis_end : Option ℤ
  total_commits : ℕ
  unique_authors : ℕ
  after_hours_commits : ℕ
  weekend_commits : ℕ
  night_commits : ℕ
  commit_days : ℕ
  overtime_days : ℕ
  longest_streak_days : ℕ
  busiest_day : Option BusiestDay
  severity_score : ℚ
  severity_label : String
  top_after_hours_authors : List AuthorSummary
  chill_authors : List AuthorSummary
  ignored_authors : List String
  alias_rules : List (String × String)
deriving DecidableEq, Repr

/-- src/metrics.rs `percentage`: `part / total`, `0` when `total == 0`. -/
def percentage (part total : ℕ) : ℚ :=
  if total = 0 then 0 else (part : ℚ) / (total : ℚ)

/-- src/metrics.rs `severity_score` (lines 248-278), with `f64` as `ℚ`. -/
def severity_score (total after_hours weekend night overtime_days commit_days
    longest_streak : ℕ) : ℚ :=
  if total = 0 then 0
  else
    let after_hours_ratio := percentage after_hours total
    let weekend_ratio := percentage weekend total
    let night_ratio := percentage night total
    let overtime_day_ratio :=
      if commit_days = 0 then 0 else percentage overtime_days commit_days
    let streak_factor : ℚ := ((min longest_streak 14 : ℕ) : ℚ) / 14
    let score := after_hours_ratio * 40 + weekend_ratio * 20 + night_ratio * 20
      + overtime_day_ratio * 10 + streak_factor * 10
    min score 100

/-- Rust `score as u32` on a finite `f64`: truncation toward zero, saturating
at `0` below and at `u32::MAX` above.  For the nonnegative scores that arise
this is the integer floor. -/
def f64_as_u32 (score : ℚ) : ℕ :=
  if score < 0 then 0 else min (Int.toNat ⌊score⌋) (2 ^ 32 - 1)

/-- src/metrics.rs `severity_label` (lines 280-288): the `match score as u32`
range bands. -/
def severity_label (score : ℚ) : String :=
  let n := f64_as_u32 score
  if n ≤ 20 then "轻松自在"
  else if n ≤ 40 then "基本健康"
  else if n ≤ 60 then "持续加班"
  else if n ≤ 80 then "半牛马状态"
  else "全面牛马预警"

/-- Loop body of src/metrics.rs `longest_streak` once `prev` is set:
`current` is the length of the run ending at `prev`, `best` the maximum so
far; a day-to-day difference of exactly 1 extends the run, anything else
resets it to 1. -/
def longestStreakGo (prev : ℤ) (current best : ℕ) : List ℤ → ℕ
  | [] => best
  | d :: ds =>
    let cur := if d - prev = 1 then current + 1 else 1
    longestStreakGo d cur (max best cur) ds

/-- src/metrics.rs `longest_streak` (lines 218-246) over the dates in
iteration order. -/
def longest_streak : List ℤ → ℕ
  | [] => 0
  | d :: ds => longestStreakGo d 1 (max 0 1) ds

/-- `day_stats.entry(date).or_default()` followed by the increments, on the
sorted-association-list model of `BTreeMap`. -/
def updateDay (date : ℤ) (after : Bool) :
    List (ℤ × DayStats) → List (ℤ × DayStats)
  | [] => [(date, ⟨1, if after then 1 else 0⟩)]
  | (d, s) :: rest =>
    if date < d then
      (date, ⟨1, if after then 1 else 0⟩) :: (d, s) :: rest
    else if date = d then
      (d, ⟨s.total_commits + 1, s.after_hours_commits + if after then 1 else 0⟩) :: rest
    else
      (d, s) :: updateDay date after rest

/-- `author_stats.entry(author).or_default()` followed by the increments, on
the insertion-ordered association-list model of `HashMap`. -/
def updateAuthor (name : String) (ah we nt : Bool) :
    List (String × AuthorAccumulator) → List (String × AuthorAccumulator)
  | [] => [(name, ⟨1, if ah then 1 else 0, if we then 1 else 0, if nt then 1 else 0⟩)]
  | (n, a) :: rest =>
    if name = n then
      (n, ⟨a.total_commits + 1,
           a.after_hours_commits + if ah then 1 else 0,
           a.weekend_commits + if we then 1 else 0,
           a.night_commits + if nt then 1 else 0⟩) :: rest
    else
      (n, a) :: updateAuthor name ah we nt rest

/-- The mutable state of the `for commit in commits` loop in
src/metrics.rs `compute_metrics` (lines 74-128). -/
structure FoldState where
  after_hours : ℕ
  weekend : ℕ
  night : ℕ
  day_stats : List (ℤ × DayStats)
  author_stats : List (String × AuthorAccumulator)
  analysis_start : Option ℤ
  analysis_end : Option ℤ
deriving Repr

/-- Initial loop state. -/
def initState : FoldState := ⟨0, 0, 0, [], [], none, none⟩

/-- One iteration of the per-commit fold (src/metrics.rs lines 82-128). -/
def foldStep (st : FoldState) (c : Commit) : FoldState :=
  let start := match st.analysis_start with
    | none => some c.instant
    | some s => if c.instant < s then some c.instant else some s
  let stop := match st.analysis_end with
    | none => some c.instant
    | some e => if e < c.instant then some c.instant else some e
  let ah := is_after_hours c.hour
  let we := is_weekend c.date
  let nt := is_night c.hour
  { after_hours := st.after_hours + if ah then 1 else 0
    weekend := st.weekend + if we then 1 else 0
    night := st.night + if nt then 1 else 0
    day_stats := updateDay c.date ah st.day_stats
    author_stats := updateAuthor c.author ah we nt st.author_stats
    analysis_start := start
    analysis_end := stop }

/-- The whole per-commit fold, in input order. -/
def foldCommits (commits : List Commit) : FoldState :=
  commits.foldl foldStep initState

/-- Totalised `Ordering` comparison of naturals, as Rust `usize::cmp`. -/
def cmpNat (a b : ℕ) : Ordering :=
  if a < b then .lt else if b < a then .gt else .eq

/-- `partial_cmp(..).unwrap_or(Equal)` on finite floats, modelled on `ℚ`
where the comparison is always defined. -/
def cmpQ (a b : ℚ) : Ordering :=
  if a < b then .lt else if b < a then .gt else .eq

/-- The `max_by` comparator of src/metrics.rs lines 138-142:
`total_commits` first, ties on `after_hours_commits`. -/
def cmpDayStats (a b : DayStats) : Ordering :=
  (cmpNat a.total_commits b.total_commits).then
    (cmpNat a.after_hours_commits b.after_hours_commits)

/-- Rust `Iterator::max_by`: fold with `cmp::max_by`, which keeps the earlier
element only when the later compares strictly less, so the last of several
equal maxima is returned.  `none` on an empty iterator. -/
def maxByRust (cmp : α → α → Ordering) : List α → Option α
  | [] => none
  | a :: rest => some (rest.foldl (fun acc x => if cmp x acc = .lt then acc else x) a)

/-- The nightowl comparator of src/metrics.rs lines 167-172:
`after_hours_ratio` descending, ties on `after_hours_commits` descending. -/
def nightowlCmp (a b : AuthorSummary) : Ordering :=
  (cmpQ b.after_hours_ratio a.after_hours_ratio).then
    (cmpNat b.after_hours_commits a.after_hours_commits)

/-- The chill comparator of src/metrics.rs lines 175-180:
`after_hours_ratio` ascending, ties on `total_commits` descending. -/
def chillCmp (a b : AuthorSummary) : Ordering :=
  (cmpQ a.after_hours_ratio b.after_hours_ratio).then
    (cmpNat b.total_commits a.total_commits)

/-- `Vec::sort_by` with an `Ordering` comparator: a stable sort placing `a`
no later than `b` whenever `cmp a b ≠ Greater`.  Rust's driftsort and a
stable insertion sort compute the same list, namely the unique reordering
that is sorted for the total preorder and keeps ties in input order. -/
def sortByCmp (cmp : α → α → Ordering) (l : List α) : List α :=
  l.insertionSort (fun a b => cmp a b ≠ Ordering.gt)

/-- The author summaries built from the accumulators
(src/metrics.rs lines 151-164). -/
def authorSummaries (commits : List Commit) : List AuthorSummary :=
  (foldCommits commits).author_stats.map (fun e =>
    AuthorSummary.mk e.1 e.2.total_commits e.2.after_hours_commits
      e.2.weekend_commits e.2.night_commits
      (percentage e.2.after_hours_commits e.2.total_commits))

/-- src/metrics.rs `compute_metrics` (lines 68-216). -/
def compute_metrics (repo_path : String) (commits : List Commit)
    (ignored_authors : List String) (alias_rules : List (String × String)) :
    RepoMetrics :=
  let st := foldCommits commits
  let commit_days := st.day_stats.length
  let overtime_days := st.day_stats.countP (fun e => decide (0 < e.2.after_hours_commits))
  let longest_streak_days := longest_streak (st.day_stats.map Prod.fst)
  let busiest_day := (maxByRust (fun p q => cmpDayStats p.2 q.2) st.day_stats).map
    (fun e => BusiestDay.mk e.1 e.2.total_commits e.2.after_hours_commits)
  let unique_authors := st.author_stats.length
  let summaries := authorSummaries commits
  let nightowls := (sortByCmp nightowlCmp summaries).take 3
  let chill := (sortByCmp chillCmp summaries).take 3
  let total_commits := commits.length
  let score := severity_score total_commits st.after_hours st.weekend st.night
    overtime_days commit_days longest_streak_days
  { repo_path := repo_path
    analysis_start := st.analysis_start
    analysis_end := st.analysis_end
    total_commits := total_commits
    unique_authors := unique_authors
    after_hours_commits := st.after_hours
    weekend_commits := st.weekend
    night_commits := st.night
    commit_days := commit_days
    overtime_days := overtime_days
    longest_streak_days := longest_streak_days
    busiest_day := busiest_day
    severity_score := score
    severity_label := severity_label score
    top_after_hours_authors := nightowls
    chill_authors := chill
    ignored_authors := ignored_authors
    alias_rules := alias_rules }

/-! ### src/alias.rs -/

/-- `entry.splitn(2, '=')` in list-of-characters form: `none` when the entry
contains no `=` (one part), otherwise the parts before and after the first
`=`. -/
def splitFirstEq : List Char → Option (List Char × List Char)
  | [] => none
  | c :: rest =>
    if c = '=' then some ([], rest)
    else (splitFirstEq rest).map (fun p => (c :: p.1, p.2))

/-- Rust `char::is_whitespace` (standard library, external to this
repository): membership in the Unicode `White_Space` set.  This is wider
than Lean's `Char.isWhitespace`: it also holds of vertical tab, form feed,
NEL, NBSP, and the U+1680, U+2000-U+200A, U+2028, U+2029, U+202F, U+205F
and U+3000 spaces. -/
def rustIsWhitespace (c : Char) : Bool :=
  ([0x09, 0x0A, 0x0B, 0x0C, 0x0D, 0x20, 0x85, 0xA0, 0x1680,
    0x2000, 0x2001, 0x2002, 0x2003, 0x2004, 0x2005, 0x2006, 0x2007,
    0x2008, 0x2009, 0x200A, 0x2028, 0x2029, 0x202F, 0x205F,
    0x3000] : List ℕ).contains c.toNat

/-- Rust `str::trim`: strip Unicode whitespace from both ends. -/
def rustTrim (s : List Char) : List Char :=
  (((s.dropWhile rustIsWhitespace).reverse).dropWhile rustIsWhitespace).reverse

/-- `HashMap::insert` on the association-list model: replace the binding of
an existing key in place, otherwise append. -/
def insertAssoc (k v : List Char) :
    List (List Char × List Char) → List (List Char × List Char)
  | [] => [(k, v)]
  | (k0, v0) :: rest =>
    if k = k0 then (k, v) :: rest else (k0, v0) :: insertAssoc k v rest

/-- The loop of src/alias.rs `parse_aliases` over the remaining raw entries,
with the map built so far. -/
def parseAliasesGo (m : List (List Char × List Char)) :
    List (List Char) → Except String (List (List Char × List Char))
  | [] => .ok m
  | entry :: rest =>
    match splitFirstEq entry with
    | none => .error "别名参数格式应为 旧名=统一名"
    | some (lhs, rhs) =>
      let f := rustTrim lhs
      let t := rustTrim rhs
      if f = [] ∨ t = [] then .error "别名参数不能为空"
      else parseAliasesGo (insertAssoc f t m) rest

/-- src/alias.rs `parse_aliases` (lines 5-20). -/
def parse_aliases (raw : List (List Char)) :
    Except String (List (List Char × List Char)) :=
  parseAliasesGo [] raw

/-! ### src/time_filter.rs -/

/-- Spec 4.6: `p(a, b) = a / b` when `b > 0`, else `0`. -/
def specP (a b : ℕ) : ℚ :=
  if b = 0 then 0 else (a : ℚ) / (b : ℚ)

/-- Spec 4.6: `score = min(100, ah_ratio * 40 + we_ratio * 20 + nt_ratio * 20
+ ot_day_ratio * 10 + streak_factor * 10)` with `streak_factor =
min(longest_streak, 14) / 14`. -/
def specScore (total after_hours weekend night overtime_days commit_days
    longest_streak : ℕ) : ℚ :=
  min 100 (specP after_hours total * 40 + specP weekend total * 20
    + specP night total * 20 + specP overtime_days commit_days * 10
    + ((min longest_streak 14 : ℕ) : ℚ) / 14 * 10)

/-- Length of the run of consecutive dates (day-to-day difference exactly 1)
starting at the head of the list; `0` for the empty list. -/
def headRun : List ℤ → ℕ
  | [] => 0
  | [_] => 1
  | a :: b :: t => if b - a = 1 then 1 + headRun (b :: t) else 1

/-- Spec 4.4: the maximum length of a maximal run of consecutive calendar
dates, expressed as the maximum over every suffix of the run length starting
at its head (a maximal run's length is attained at its own start). -/
def streakSpec : List ℤ → ℕ
  | [] => 0
  | a :: t => max (headRun (a :: t)) (streakSpec t)

/-- Number of elements at the head of the list continuing a consecutive run
from `prev` (each successive date exactly one later than the previous). -/
def contRun (prev : ℤ) : List ℤ → ℕ
  | [] => 0
  | d :: ds => if d - prev = 1 then 1 + contRun d ds else 0

/-- Number of retained commits on calendar date `d`. -/
def dayTotal (cs : List Commit) (d : ℤ) : ℕ :=
  cs.countP (fun c => decide (c.date = d))

/-- Number of retained after-hours commits on calendar date `d`. -/
def dayAfterHours (cs : List Commit) (d : ℤ) : ℕ :=
  cs.countP (fun c => decide (c.date = d) && is_after_hours c.hour)

/-- Spec 4.7 night-owl ordering: `after_hours_ratio` descending, ties broken
by `after_hours_commits` descending. -/
def nightowlRel (a b : AuthorSummary) : Prop :=
  b.after_hours_ratio < a.after_hours_ratio ∨
    (a.after_hours_ratio = b.after_hours_ratio ∧
      b.after_hours_commits ≤ a.after_hours_commits)

/-- Spec 4.7 chill ordering: `after_hours_ratio` ascending, ties broken by
`total_commits` descending. -/
def chillRel (a b : AuthorSummary) : Prop :=
  a.after_hours_ratio < b.after_hours_ratio ∨
    (a.after_hours_ratio = b.after_hours_ratio ∧
      b.total_commits ≤ a.total_commits)

/-- Auxiliary, best-so-far-free description of the streak loop: the largest
run length realisable in the remaining list when a run of length `cur` ends
just before it at `prev`. -/
def goMax (prev : ℤ) (cur : ℕ) : List ℤ → ℕ
  | [] => 0
  | d :: ds =>
    let c := if d - prev = 1 then cur + 1 else 1
    max c (goMax d c ds)

/-- Modelled from the spec: the alias application step of spec 4.1 is not
present under src (only `parse_aliases` and `compute_metrics`'s pass-through
`alias_rules` field are; the entry point wiring them together is missing).
Spec 4.1(b): a retained commit's author is replaced with
`alias_map[raw_author]` when present, otherwise kept verbatim; (c) order is
preserved. -/
def rewriteCommits (alias_map : List (String × String)) (cs : List Commit) :
    List Commit :=
  cs.map (fun c => { c with author := (List.lookup c.author alias_map).getD c.author })

/-! ### Streak lemmas (claim C6) -/

theorem longestStreakGo_eq (l : List ℤ) : ∀ prev current best,
    longestStreakGo prev current best l = max best (goMax prev current l) := by
  induction l with
  | nil => intro prev current best; simp [longestStreakGo, goMax]
  | cons d ds ih =>
    intro prev current best
    simp only [longestStreakGo, goMax]
    rw [ih]
    omega

theorem headRun_eq_contRun (t : List ℤ) : ∀ a, headRun (a :: t) = 1 + contRun a t := by
  induction t with
  | nil => intro a; simp [headRun, contRun]
  | cons b t ih =>
    intro a
    by_cases h : b - a = 1 <;> simp [headRun, contRun, h, ih]

theorem goMax_eq (l : List ℤ) : ∀ prev cur,
    goMax prev cur l
      = max (if contRun prev l = 0 then 0 else cur + contRun prev l) (streakSpec l) := by
  induction l with
  | nil => intro prev cur; simp [goMax, contRun, streakSpec]
  | cons d ds ih =>
    intro prev cur
    have hspec : streakSpec (d :: ds) = max (1 + contRun d ds) (streakSpec ds) := by
      simp [streakSpec, headRun_eq_contRun]
    by_cases h : d - prev = 1
    · simp only [goMax, contRun, h, if_pos, if_true]
      rw [ih, hspec]
      by_cases h0 : contRun d ds = 0 <;> simp [h0] <;> omega
    · simp only [goMax, contRun, h, if_neg, if_false]
      rw [ih, hspec]
      by_cases h0 : contRun d ds = 0 <;> simp [h0] <;> omega

theorem longest_streak_eq_streakSpec (l : List ℤ) : longest_streak l = streakSpec l := by
  cases l with
  | nil => rfl
  | cons d ds =>
    have hspec : streakSpec (d :: ds) = max (1 + contRun d ds) (streakSpec ds) := by
      simp [streakSpec, headRun_eq_contRun]
    simp only [longest_streak]
    rw [longestStreakGo_eq, goMax_eq, hspec]
    by_cases h0 : contRun d ds = 0 <;> simp [h0] <;> omega

/-- Claim C6: over unique commit dates in ascending order, `longest_streak`
returns the maximum length of a maximal run of consecutive calendar dates
(day-to-day difference exactly 1); it returns 0 on empty input, 1 for a
single date, and a gap resets the run, so three consecutive dates give 3 and
three dates with a one-day gap anywhere give 2. -/
theorem longest_streak_spec :
    (∀ l : List ℤ, List.Chain' (· < ·) l → longest_streak l = streakSpec l) ∧
    longest_streak ([] : List ℤ) = 0 ∧
    (∀ d : ℤ, longest_streak [d] = 1) ∧
    longest_streak [0, 1, 2] = 3 ∧
    longest_streak [0, 1, 3] = 2 ∧
    longest_streak [0, 2, 3] = 2 :=
  ⟨fun l _ => longest_streak_eq_streakSpec l, rfl, fun _ => rfl, by decide, by decide,
    by decide⟩

/-- Witness for C6 at the concrete ascending date list `[0, 1, 3]`. -/
theorem longest_streak_spec_witness :
    List.Chain' (fun a b : ℤ => a < b) [0, 1, 3] ∧
      longest_streak [0, 1, 3] = streakSpec [0, 1, 3] :=
  have hc : List.Chain' (fun a b : ℤ => a < b) [0, 1, 3] :=
    List.Chain.cons (by decide) (List.Chain.cons (by decide) List.Chain.nil)
  ⟨hc, longest_streak_spec.1 [0, 1, 3] hc⟩

/-! ### Severity label lemmas (claim C9) -/

theorem f64_as_u32_of_nonneg (q : ℚ) (h0 : 0 ≤ q) (h100 : q ≤ 100) :
    f64_as_u32 q = Int.toNat ⌊q⌋ := by
  unfold f64_as_u32
  rw [if_neg (not_lt.mpr h0)]
  have h1 : ⌊q⌋ ≤ 100 := by
    have := Int.floor_le_floor h100
    simpa using this
  have h2 : (2 : ℕ) ^ 32 - 1 = 4294967295 := by norm_num
  rw [h2]
  omega

/-- Claim C9: the severity label is chosen by integer truncation of the
score (the floor, for the nonnegative scores in range): truncated score 0-20
maps to 轻松自在, 21-40 to 基本健康, 41-60 to 持续加班, 61-80 to 半牛马状态 and
81-100 to 全面牛马预警; at exact integer boundaries the lower band wins
(score 20.0 and 20.9 give 轻松自在 while 21.0 gives 基本健康). -/
theorem severity_label_spec :
    (∀ q : ℚ, 0 ≤ q → q ≤ 100 →
      ((⌊q⌋ ≤ 20 → severity_label q = "轻松自在") ∧
       (21 ≤ ⌊q⌋ → ⌊q⌋ ≤ 40 → severity_label q = "基本健康") ∧
       (41 ≤ ⌊q⌋ → ⌊q⌋ ≤ 60 → severity_label q = "持续加班") ∧
       (61 ≤ ⌊q⌋ → ⌊q⌋ ≤ 80 → severity_label q = "半牛马状态") ∧
       (81 ≤ ⌊q⌋ → severity_label q = "全面牛马预警"))) ∧
    severity_label 20 = "轻松自在" ∧
    severity_label (209 / 10) = "轻松自在" ∧
    severity_label 21 = "基本健康" := by
  constructor
  · intro q h0 h100
    simp only [severity_label]
    rw [f64_as_u32_of_nonneg q h0 h100]
    refine ⟨?_, ?_, ?_, ?_, ?_⟩ <;> intros <;> split_ifs <;> first | rfl | omega
  · refine ⟨by decide, ?_, by decide⟩
    have hfloor : ⌊(209 : ℚ) / 10⌋ = 20 := by
      rw [show ((209 : ℚ) / 10) = ((209 : ℤ) : ℚ) / ((10 : ℕ) : ℚ) by norm_num,
        Rat.floor_intCast_div_natCast]
      decide
    have hval : f64_as_u32 (209 / 10) = 20 := by
      unfold f64_as_u32
      rw [if_neg (by norm_num), hfloor]
      decide
    simp only [severity_label, hval]
    rfl

/-- Witness for C9 at the concrete score 50. -/
theorem severity_label_spec_witness :
    (0 : ℚ) ≤ 50 ∧ (50 : ℚ) ≤ 100 ∧ (41 ≤ ⌊(50 : ℚ)⌋ ∧ ⌊(50 : ℚ)⌋ ≤ 60) ∧
      severity_label 50 = "持续加班" :=
  ⟨by decide, by decide, ⟨by decide, by decide⟩,
    (severity_label_spec.1 50 (by decide) (by decide)).2.2.1 (by decide) (by decide)⟩

/-! ### Severity score lemmas (claim C1) -/

theorem severity_score_eq_spec (total ah we nt ot cd st : ℕ) (h : 0 < total) :
    severity_score total ah we nt ot cd st = specScore total ah we nt ot cd st := by
  have hne : total ≠ 0 := by omega
  by_cases hcd : cd = 0 <;>
    simp only [severity_score, specScore, percentage, specP, hne, hcd, if_true, if_false,
      ite_true, ite_false] <;>
    rw [min_comm]

theorem percentage_nonneg (a b : ℕ) : 0 ≤ percentage a b := by
  unfold percentage
  split
  · exact le_refl 0
  · positivity

theorem percentage_le_one (a b : ℕ) (h : a ≤ b) : percentage a b ≤ 1 := by
  unfold percentage
  split
  · norm_num
  · next hb =>
    rw [div_le_one (by exact_mod_cast Nat.pos_of_ne_zero hb)]
    exact_mod_cast h

theorem severity_score_nonneg (t ah we nt ot cd st : ℕ) :
    0 ≤ severity_score t ah we nt ot cd st := by
  unfold severity_score
  split
  · exact le_refl 0
  · refine le_min ?_ (by norm_num)
    have h1 := percentage_nonneg ah t
    have h2 := percentage_nonneg we t
    have h3 := percentage_nonneg nt t
    have h4 : (0 : ℚ) ≤ (if cd = 0 then 0 else percentage ot cd) := by
      split
      · exact le_refl 0
      · exact percentage_nonneg ot cd
    have h5 : (0 : ℚ) ≤ ((min st 14 : ℕ) : ℚ) / 14 := by positivity
    have m1 : (0 : ℚ) ≤ percentage ah t * 40 := mul_nonneg h1 (by norm_num)
    have m2 : (0 : ℚ) ≤ percentage we t * 20 := mul_nonneg h2 (by norm_num)
    have m3 : (0 : ℚ) ≤ percentage nt t * 20 := mul_nonneg h3 (by norm_num)
    have m4 : (0 : ℚ) ≤ (if cd = 0 then 0 else percentage ot cd) * 10 :=
      mul_nonneg h4 (by norm_num)
    have m5 : (0 : ℚ) ≤ ((min st 14 : ℕ) : ℚ) / 14 * 10 := mul_nonneg h5 (by norm_num)
    linarith

theorem severity_score_le_100 (t ah we nt ot cd st : ℕ) :
    severity_score t ah we nt ot cd st ≤ 100 := by
  unfold severity_score
  split
  · norm_num
  · exact min_le_right _ _

theorem severity_score_pos (t ah we nt ot cd st : ℕ) (ht : 0 < t) (hst : 1 ≤ st) :
    0 < severity_score t ah we nt ot cd st := by
  unfold severity_score
  rw [if_neg (by omega)]
  refine lt_min ?_ (by norm_num)
  have h1 := percentage_nonneg ah t
  have h2 := percentage_nonneg we t
  have h3 := percentage_nonneg nt t
  have h4 : (0 : ℚ) ≤ (if cd = 0 then 0 else percentage ot cd) := by
    split
    · exact le_refl 0
    · exact percentage_nonneg ot cd
  have hmin : (1 : ℕ) ≤ min st 14 := by omega
  have hminq : (1 : ℚ) ≤ ((min st 14 : ℕ) : ℚ) := by exact_mod_cast hmin
  have m1 : (0 : ℚ) ≤ percentage ah t * 40 := mul_nonneg h1 (by norm_num)
  have m2 : (0 : ℚ) ≤ percentage we t * 20 := mul_nonneg h2 (by norm_num)
  have m3 : (0 : ℚ) ≤ percentage nt t * 20 := mul_nonneg h3 (by norm_num)
  have m4 : (0 : ℚ) ≤ (if cd = 0 then 0 else percentage ot cd) * 10 :=
    mul_nonneg h4 (by norm_num)
  have m5 : (10 : ℚ) / 14 ≤ ((min st 14 : ℕ) : ℚ) / 14 * 10 := by linarith
  linarith

theorem longest_streak_pos (l : List ℤ) (h : l ≠ []) : 1 ≤ longest_streak l := by
  cases l with
  | nil => cases h rfl
  | cons d ds =>
    show 1 ≤ longestStreakGo d 1 (max 0 1) ds
    rw [longestStreakGo_eq]
    omega

theorem updateDay_ne_nil (d : ℤ) (b : Bool) (m : List (ℤ × DayStats)) :
    updateDay d b m ≠ [] := by
  cases m with
  | nil => simp [updateDay]
  | cons p rest =>
    obtain ⟨d0, s0⟩ := p
    simp only [updateDay]
    split_ifs <;> simp

theorem foldl_day_ne_nil (cs : List Commit) : ∀ st : FoldState, st.day_stats ≠ [] →
    (cs.foldl foldStep st).day_stats ≠ [] := by
  induction cs with
  | nil => intro st h; simpa using h
  | cons c cs ih =>
    intro st h
    rw [List.foldl_cons]
    exact ih _ (updateDay_ne_nil _ _ _)

theorem foldCommits_day_ne_nil (cs : List Commit) (h : cs ≠ []) :
    (foldCommits cs).day_stats ≠ [] := by
  cases cs with
  | nil => cases h rfl
  | cons c cs =>
    unfold foldCommits
    rw [List.foldl_cons]
    exact foldl_day_ne_nil cs _ (updateDay_ne_nil _ _ _)

theorem cm_severity (rp : String) (cs : List Commit) (ig : List String)
    (al : List (String × String)) :
    (compute_metrics rp cs ig al).severity_score
      = severity_score cs.length (foldCommits cs).after_hours (foldCommits cs).weekend
        (foldCommits cs).night
        ((foldCommits cs).day_stats.countP fun e => decide (0 < e.2.after_hours_commits))
        (foldCommits cs).day_stats.length
        (longest_streak ((foldCommits cs).day_stats.map Prod.fst)) := rfl

theorem cm_total (rp : String) (cs : List Commit) (ig : List String)
    (al : List (String × String)) :
    (compute_metrics rp cs ig al).total_commits = cs.length := rfl

/-- Claim C1: for every input with `total_commits > 0`, `severity_score`
equals `min(100, ah_ratio * 40 + we_ratio * 20 + nt_ratio * 20 +
ot_day_ratio * 10 + streak_factor * 10)` with each ratio `part / total`
(0 on zero denominator) and `streak_factor = min(longest_streak, 14) / 14`;
the score of the computed metrics always lies in `[0, 100]` and is `0` if
and only if `total_commits = 0`. -/
theorem severity_score_spec :
    (∀ total ah we nt ot cd st : ℕ, 0 < total →
      severity_score total ah we nt ot cd st = specScore total ah we nt ot cd st) ∧
    (∀ (rp : String) (cs : List Commit) (ig : List String) (al : List (String × String)),
      0 ≤ (compute_metrics rp cs ig al).severity_score ∧
      (compute_metrics rp cs ig al).severity_score ≤ 100 ∧
      ((compute_metrics rp cs ig al).severity_score = 0 ↔
        (compute_metrics rp cs ig al).total_commits = 0)) := by
  refine ⟨severity_score_eq_spec, fun rp cs ig al => ?_⟩
  rw [cm_severity, cm_total]
  refine ⟨severity_score_nonneg _ _ _ _ _ _ _, severity_score_le_100 _ _ _ _ _ _ _, ?_, ?_⟩
  · intro h0
    by_contra hne
    have hcs : cs ≠ [] := by
      intro h
      subst h
      simp at hne
    have hlen : 0 < cs.length := List.length_pos.mpr hcs
    have hday := foldCommits_day_ne_nil cs hcs
    have hkeys : (foldCommits cs).day_stats.map Prod.fst ≠ [] := by
      simpa using hday
    have hstreak := longest_streak_pos _ hkeys
    have hpos := severity_score_pos cs.length (foldCommits cs).after_hours
      (foldCommits cs).weekend (foldCommits cs).night
      ((foldCommits cs).day_stats.countP fun e => decide (0 < e.2.after_hours_commits))
      (foldCommits cs).day_stats.length
      (longest_streak ((foldCommits cs).day_stats.map Prod.fst)) hlen hstreak
    exact absurd h0 (ne_of_gt hpos)
  · intro h0
    rw [h0]
    simp [severity_score]

/-- Witness for C1: the formula equality at a concrete positive-total input,
and the bounds at a concrete metrics computation. -/
theorem severity_score_spec_witness :
    (0 : ℕ) < 2 ∧
      severity_score 2 1 1 1 1 2 1 = specScore 2 1 1 1 1 2 1 ∧
      0 ≤ (compute_metrics "p" [] [] []).severity_score :=
  ⟨by decide, severity_score_spec.1 2 1 1 1 1 2 1 (by decide),
    (severity_score_spec.2 "p" [] [] []).1⟩

/-! ### Fold and invariant lemmas (claim C5) -/

theorem foldl_after_hours (cs : List Commit) : ∀ st : FoldState,
    (cs.foldl foldStep st).after_hours
      = st.after_hours + cs.countP (fun c => is_after_hours c.hour) := by
  induction cs with
  | nil => intro st; simp
  | cons c cs ih =>
    intro st
    rw [List.foldl_cons, ih, List.countP_cons]
    simp only [foldStep]
    by_cases hb : is_after_hours c.hour <;> simp [hb] <;> omega

theorem foldl_weekend (cs : List Commit) : ∀ st : FoldState,
    (cs.foldl foldStep st).weekend
      = st.weekend + cs.countP (fun c => is_weekend c.date) := by
  induction cs with
  | nil => intro st; simp
  | cons c cs ih =>
    intro st
    rw [List.foldl_cons, ih, List.countP_cons]
    simp only [foldStep]
    by_cases hb : is_weekend c.date <;> simp [hb] <;> omega

theorem foldl_night (cs : List Commit) : ∀ st : FoldState,
    (cs.foldl foldStep st).night
      = st.night + cs.countP (fun c => is_night c.hour) := by
  induction cs with
  | nil => intro st; simp
  | cons c cs ih =>
    intro st
    rw [List.foldl_cons, ih, List.countP_cons]
    simp only [foldStep]
    by_cases hb : is_night c.hour <;> simp [hb] <;> omega

theorem updateDay_length (d : ℤ) (b : Bool) (m : List (ℤ × DayStats)) :
    (updateDay d b m).length ≤ m.length + 1 := by
  induction m with
  | nil => simp [updateDay]
  | cons p rest ih =>
    obtain ⟨d0, s0⟩ := p
    simp only [updateDay]
    split_ifs <;> simp_all <;> omega

theorem foldl_day_stats_length (cs : List Commit) : ∀ st : FoldState,
    ((cs.foldl foldStep st).day_stats).length ≤ st.day_stats.length + cs.length := by
  induction cs with
  | nil => intro st; simp
  | cons c cs ih =>
    intro st
    rw [List.foldl_cons]
    have h1 := ih (foldStep st c)
    have h2 := updateDay_length c.date (is_after_hours c.hour) st.day_stats
    have h3 : (foldStep st c).day_stats = updateDay c.date (is_after_hours c.hour) st.day_stats := rfl
    rw [h3] at h1
    simp only [List.length_cons]
    omega

theorem updateAuthor_length (n : String) (ah we nt : Bool)
    (m : List (String × AuthorAccumulator)) :
    (updateAuthor n ah we nt m).length ≤ m.length + 1 := by
  induction m with
  | nil => simp [updateAuthor]
  | cons p rest ih =>
    obtain ⟨n0, a0⟩ := p
    simp only [updateAuthor]
    split_ifs <;> simp_all <;> omega

theorem foldl_author_stats_length (cs : List Commit) : ∀ st : FoldState,
    ((cs.foldl foldStep st).author_stats).length ≤ st.author_stats.length + cs.length := by
  induction cs with
  | nil => intro st; simp
  | cons c cs ih =>
    intro st
    rw [List.foldl_cons]
    have h1 := ih (foldStep st c)
    have h2 := updateAuthor_length c.author (is_after_hours c.hour) (is_weekend c.date)
      (is_night c.hour) st.author_stats
    have h3 : (foldStep st c).author_stats
        = updateAuthor c.author (is_after_hours c.hour) (is_weekend c.date)
          (is_night c.hour) st.author_stats := rfl
    rw [h3] at h1
    simp only [List.length_cons]
    omega

/-- The spec 3 invariant on an author accumulator: each specialised counter
is at most the total. -/
def accBounded (a : AuthorAccumulator) : Prop :=
  a.after_hours_commits ≤ a.total_commits ∧ a.weekend_commits ≤ a.total_commits ∧
    a.night_commits ≤ a.total_commits

theorem updateAuthor_bounded (n : String) (ah we nt : Bool) :
    ∀ m : List (String × AuthorAccumulator), (∀ p ∈ m, accBounded p.2) →
      ∀ p ∈ updateAuthor n ah we nt m, accBounded p.2 := by
  intro m
  induction m with
  | nil =>
    intro _ p hp
    simp only [updateAuthor, List.mem_singleton] at hp
    subst hp
    simp only [accBounded]
    split_ifs <;> simp_all
  | cons q rest ih =>
    obtain ⟨n0, a0⟩ := q
    intro h p hp
    have hhead : accBounded a0 := h (n0, a0) (by simp)
    have htail : ∀ p ∈ rest, accBounded p.2 := fun p hp => h p (by simp [hp])
    by_cases heq : n = n0
    · have hrw : updateAuthor n ah we nt ((n0, a0) :: rest)
          = (n0, ⟨a0.total_commits + 1,
              a0.after_hours_commits + if ah then 1 else 0,
              a0.weekend_commits + if we then 1 else 0,
              a0.night_commits + if nt then 1 else 0⟩) :: rest := by
        simp only [updateAuthor]
        rw [if_pos heq]
      rw [hrw] at hp
      rcases List.mem_cons.mp hp with h1 | h1
      · subst h1
        simp only [accBounded] at hhead ⊢
        obtain ⟨g1, g2, g3⟩ := hhead
        refine ⟨?_, ?_, ?_⟩ <;> split_ifs <;> omega
      · exact htail p h1
    · have hrw : updateAuthor n ah we nt ((n0, a0) :: rest)
          = (n0, a0) :: updateAuthor n ah we nt rest := by
        simp only [updateAuthor]
        rw [if_neg heq]
      rw [hrw] at hp
      rcases List.mem_cons.mp hp with h1 | h1
      · subst h1; exact hhead
      · exact ih htail p h1

theorem foldl_author_bounded (cs : List Commit) : ∀ st : FoldState,
    (∀ p ∈ st.author_stats, accBounded p.2) →
      ∀ p ∈ (cs.foldl foldStep st).author_stats, accBounded p.2 := by
  induction cs with
  | nil => intro st h; simpa using h
  | cons c cs ih =>
    intro st h
    rw [List.foldl_cons]
    exact ih _ (updateAuthor_bounded _ _ _ _ _ h)

theorem foldCommits_author_bounded (cs : List Commit) :
    ∀ p ∈ (foldCommits cs).author_stats, accBounded p.2 :=
  foldl_author_bounded cs initState (by simp [initState])

theorem mem_authorSummaries_bounds (cs : List Commit) (a : AuthorSummary)
    (ha : a ∈ authorSummaries cs) :
    a.after_hours_commits ≤ a.total_commits ∧ a.weekend_commits ≤ a.total_commits ∧
      a.night_commits ≤ a.total_commits ∧ 0 ≤ a.after_hours_ratio ∧
      a.after_hours_ratio ≤ 1 := by
  unfold authorSummaries at ha
  rcases List.mem_map.mp ha with ⟨p, hp, rfl⟩
  obtain ⟨h1, h2, h3⟩ := foldCommits_author_bounded cs p hp
  exact ⟨h1, h2, h3, percentage_nonneg _ _, percentage_le_one _ _ h1⟩

theorem cm_after_hours (rp : String) (cs : List Commit) (ig : List String)
    (al : List (String × String)) :
    (compute_metrics rp cs ig al).after_hours_commits = (foldCommits cs).after_hours := rfl

theorem cm_weekend (rp : String) (cs : List Commit) (ig : List String)
    (al : List (String × String)) :
    (compute_metrics rp cs ig al).weekend_commits = (foldCommits cs).weekend := rfl

theorem cm_night (rp : String) (cs : List Commit) (ig : List String)
    (al : List (String × String)) :
    (compute_metrics rp cs ig al).night_commits = (foldCommits cs).night := rfl

theorem cm_commit_days (rp : String) (cs : List Commit) (ig : List String)
    (al : List (String × String)) :
    (compute_metrics rp cs ig al).commit_days = (foldCommits cs).day_stats.length := rfl

theorem cm_overtime_days (rp : String) (cs : List Commit) (ig : List String)
    (al : List (String × String)) :
    (compute_metrics rp cs ig al).overtime_days
      = (foldCommits cs).day_stats.countP (fun e => decide (0 < e.2.after_hours_commits)) := rfl

theorem cm_unique_authors (rp : String) (cs : List Commit) (ig : List String)
    (al : List (String × String)) :
    (compute_metrics rp cs ig al).unique_authors = (foldCommits cs).author_stats.length := rfl

theorem cm_top (rp : String) (cs : List Commit) (ig : List String)
    (al : List (String × String)) :
    (compute_metrics rp cs ig al).top_after_hours_authors
      = (sortByCmp nightowlCmp (authorSummaries cs)).take 3 := rfl

theorem cm_chill (rp : String) (cs : List Commit) (ig : List String)
    (al : List (String × String)) :
    (compute_metrics rp cs ig al).chill_authors
      = (sortByCmp chillCmp (authorSummaries cs)).take 3 := rfl

theorem take_sortByCmp_subset (cmp : α → α → Ordering) (l : List α) (n : ℕ) :
    (sortByCmp cmp l).take n ⊆ l := fun x hx =>
  (List.perm_insertionSort _ l).subset ((List.take_subset _ _) hx)

/-- Claim C5: for every input, `after_hours_commits`, `weekend_commits` and
`night_commits` are at most `total_commits`; `overtime_days ≤ commit_days ≤
total_commits`; `unique_authors ≤ total_commits`; and every author summary
in the two ranked lists has its specialised counters at most its
`total_commits` and `after_hours_ratio` in `[0, 1]`. -/
theorem metrics_invariants (rp : String) (cs : List Commit) (ig : List String)
    (al : List (String × String)) :
    (compute_metrics rp cs ig al).after_hours_commits
        ≤ (compute_metrics rp cs ig al).total_commits ∧
    (compute_metrics rp cs ig al).weekend_commits
        ≤ (compute_metrics rp cs ig al).total_commits ∧
    (compute_metrics rp cs ig al).night_commits
        ≤ (compute_metrics rp cs ig al).total_commits ∧
    (compute_metrics rp cs ig al).overtime_days
        ≤ (compute_metrics rp cs ig al).commit_days ∧
    (compute_metrics rp cs ig al).commit_days
        ≤ (compute_metrics rp cs ig al).total_commits ∧
    (compute_metrics rp cs ig al).unique_authors
        ≤ (compute_metrics rp cs ig al).total_commits ∧
    (∀ a : AuthorSummary,
      (a ∈ (compute_metrics rp cs ig al).top_after_hours_authors ∨
        a ∈ (compute_metrics rp cs ig al).chill_authors) →
      a.after_hours_commits ≤ a.total_commits ∧ a.weekend_commits ≤ a.total_commits ∧
        a.night_commits ≤ a.total_commits ∧ 0 ≤ a.after_hours_ratio ∧
        a.after_hours_ratio ≤ 1) := by
  have hfold : foldCommits cs = cs.foldl foldStep initState := rfl
  refine ⟨?_, ?_, ?_, ?_, ?_, ?_, ?_⟩
  · rw [cm_after_hours, cm_total, hfold, foldl_after_hours]
    simpa [initState] using List.countP_le_length _
  · rw [cm_weekend, cm_total, hfold, foldl_weekend]
    simpa [initState] using List.countP_le_length _
  · rw [cm_night, cm_total, hfold, foldl_night]
    simpa [initState] using List.countP_le_length _
  · rw [cm_overtime_days, cm_commit_days]
    exact List.countP_le_length _
  · rw [cm_commit_days, cm_total, hfold]
    simpa [initState] using foldl_day_stats_length cs initState
  · rw [cm_unique_authors, cm_total, hfold]
    simpa [initState] using foldl_author_stats_length cs initState
  · intro a ha
    rcases ha with ha | ha
    · rw [cm_top] at ha
      exact mem_authorSummaries_bounds cs a (take_sortByCmp_subset _ _ _ ha)
    · rw [cm_chill] at ha
      exact mem_authorSummaries_bounds cs a (take_sortByCmp_subset _ _ _ ha)

unseal Rat.mul Rat.inv in
/-- Witness for C5 at a concrete one-commit input, exercising the
author-summary clause on its actual ranked-list entry. -/
theorem metrics_invariants_witness :
    ((⟨"a", 1, 0, 0, 0, 0⟩ : AuthorSummary)
        ∈ (compute_metrics "p" [⟨"a", 0, 12, 0⟩] [] []).top_after_hours_authors ∨
      (⟨"a", 1, 0, 0, 0, 0⟩ : AuthorSummary)
        ∈ (compute_metrics "p" [⟨"a", 0, 12, 0⟩] [] []).chill_authors) ∧
    ((⟨"a", 1, 0, 0, 0, 0⟩ : AuthorSummary).after_hours_commits
        ≤ (⟨"a", 1, 0, 0, 0, 0⟩ : AuthorSummary).total_commits ∧
      (⟨"a", 1, 0, 0, 0, 0⟩ : AuthorSummary).weekend_commits
        ≤ (⟨"a", 1, 0, 0, 0, 0⟩ : AuthorSummary).total_commits ∧
      (⟨"a", 1, 0, 0, 0, 0⟩ : AuthorSummary).night_commits
        ≤ (⟨"a", 1, 0, 0, 0, 0⟩ : AuthorSummary).total_commits ∧
      (0 : ℚ) ≤ (⟨"a", 1, 0, 0, 0, 0⟩ : AuthorSummary).after_hours_ratio ∧
      (⟨"a", 1, 0, 0, 0, 0⟩ : AuthorSummary).after_hours_ratio ≤ 1) :=
  have hmem : (⟨"a", 1, 0, 0, 0, 0⟩ : AuthorSummary)
      ∈ (compute_metrics "p" [⟨"a", 0, 12, 0⟩] [] []).top_after_hours_authors := by decide
  ⟨Or.inl hmem,
    (metrics_invariants "p" [⟨"a", 0, 12, 0⟩] [] []).2.2.2.2.2.2 _ (Or.inl hmem)⟩

/-! ### Comparator characterisations -/

theorem cmpNat_lt_iff (a b : ℕ) : cmpNat a b = .lt ↔ a < b := by
  unfold cmpNat
  split_ifs <;> simp_all <;> omega

theorem cmpNat_gt_iff (a b : ℕ) : cmpNat a b = .gt ↔ b < a := by
  unfold cmpNat
  split_ifs <;> simp_all <;> omega

theorem cmpNat_eq_iff (a b : ℕ) : cmpNat a b = .eq ↔ a = b := by
  unfold cmpNat
  split_ifs <;> simp_all <;> omega

theorem cmpQ_lt_iff (a b : ℚ) : cmpQ a b = .lt ↔ a < b := by
  unfold cmpQ
  split_ifs with h1 h2
  · simp [h1]
  · simp [h1]
  · simp [h1]

theorem cmpQ_gt_iff (a b : ℚ) : cmpQ a b = .gt ↔ b < a := by
  unfold cmpQ
  split_ifs with h1 h2
  · simp [lt_asymm h1]
  · simp [h2]
  · simp [h2]

theorem cmpQ_eq_iff (a b : ℚ) : cmpQ a b = .eq ↔ a = b := by
  unfold cmpQ
  split_ifs with h1 h2
  · simp [ne_of_lt h1]
  · simp [(ne_of_lt h2).symm]
  · simp [le_antisymm (le_of_not_lt h2) (le_of_not_lt h1)]

theorem then_eq_gt (o1 o2 : Ordering) :
    o1.then o2 = .gt ↔ (o1 = .gt ∨ (o1 = .eq ∧ o2 = .gt)) := by
  cases o1 <;> cases o2 <;> decide

theorem then_eq_lt (o1 o2 : Ordering) :
    o1.then o2 = .lt ↔ (o1 = .lt ∨ (o1 = .eq ∧ o2 = .lt)) := by
  cases o1 <;> cases o2 <;> decide

theorem then_eq_eq (o1 o2 : Ordering) :
    o1.then o2 = .eq ↔ (o1 = .eq ∧ o2 = .eq) := by
  cases o1 <;> cases o2 <;> decide

theorem cmpDayStats_lt_iff (a b : DayStats) :
    cmpDayStats a b = .lt ↔ (a.total_commits < b.total_commits ∨
      (a.total_commits = b.total_commits ∧ a.after_hours_commits < b.after_hours_commits)) := by
  unfold cmpDayStats
  rw [then_eq_lt, cmpNat_lt_iff, cmpNat_eq_iff, cmpNat_lt_iff]

/-! ### Busiest-day lemmas (claims C7 and C10) -/

/-- Spec 4.5 preorder on day statistics: fewer commits, or equally many
commits and no more after-hours commits. -/
def statLe (a b : DayStats) : Prop :=
  a.total_commits < b.total_commits ∨
    (a.total_commits = b.total_commits ∧ a.after_hours_commits ≤ b.after_hours_commits)

theorem statLe_refl (a : DayStats) : statLe a a := Or.inr ⟨rfl, le_refl _⟩

theorem statLe_trans {a b c : DayStats} (h1 : statLe a b) (h2 : statLe b c) :
    statLe a c := by
  unfold statLe at *
  omega

theorem statLe_antisymm {a b : DayStats} (h1 : statLe a b) (h2 : statLe b a) : a = b := by
  have h3 : a.total_commits = b.total_commits ∧
      a.after_hours_commits = b.after_hours_commits := by
    unfold statLe at *
    omega
  cases a
  cases b
  simp_all

theorem not_cmp_lt_iff (a b : DayStats) : ¬(cmpDayStats a b = .lt) ↔ statLe b a := by
  rw [cmpDayStats_lt_iff]
  unfold statLe
  omega

/-- The `max_by` fold of src/metrics.rs applied to the nonempty day map. -/
def maxFoldDay (a : ℤ × DayStats) (rest : List (ℤ × DayStats)) : ℤ × DayStats :=
  rest.foldl (fun acc x => if cmpDayStats x.2 acc.2 = .lt then acc else x) a

theorem maxByRust_cons (a : ℤ × DayStats) (rest : List (ℤ × DayStats)) :
    maxByRust (fun p q => cmpDayStats p.2 q.2) (a :: rest) = some (maxFoldDay a rest) := rfl

theorem maxFoldDay_spec (rest : List (ℤ × DayStats)) : ∀ a : ℤ × DayStats,
    List.Pairwise (fun p q : ℤ × DayStats => p.1 < q.1) (a :: rest) →
      maxFoldDay a rest ∈ a :: rest ∧
      ∀ x ∈ a :: rest, statLe x.2 (maxFoldDay a rest).2 ∧
        (x.2 = (maxFoldDay a rest).2 → x.1 ≤ (maxFoldDay a rest).1) := by
  induction rest with
  | nil =>
    intro a _
    refine ⟨by simp [maxFoldDay], ?_⟩
    intro x hx
    have hxa : x = a := by simpa using hx
    subst hxa
    exact ⟨statLe_refl _, fun _ => le_refl _⟩
  | cons y rest ih =>
    intro a hp
    have hkey_ay : a.1 < y.1 := (List.pairwise_cons.mp hp).1 y (by simp)
    by_cases hlt : cmpDayStats y.2 a.2 = .lt
    · have hunf : maxFoldDay a (y :: rest) = maxFoldDay a rest := by
        simp [maxFoldDay, List.foldl_cons, hlt]
      have hp' : List.Pairwise (fun p q : ℤ × DayStats => p.1 < q.1) (a :: rest) :=
        List.Pairwise.sublist (List.Sublist.cons₂ a (List.sublist_cons_self y rest)) hp
      obtain ⟨hmem, hall⟩ := ih a hp'
      have hya : statLe y.2 a.2 ∧ y.2 ≠ a.2 := by
        rw [cmpDayStats_lt_iff] at hlt
        unfold statLe
        constructor
        · omega
        · intro he
          rw [he] at hlt
          omega
      rw [hunf]
      constructor
      · rcases List.mem_cons.mp hmem with h1 | h1
        · simp [h1]
        · simp [h1]
      · intro x hx
        rcases List.mem_cons.mp hx with hxa | hx'
        · rw [hxa]
          exact hall a (by simp)
        · rcases List.mem_cons.mp hx' with hxy | hx''
          · rw [hxy]
            have haR := hall a (by simp)
            refine ⟨statLe_trans hya.1 haR.1, ?_⟩
            intro he
            exfalso
            apply hya.2
            have hay2 : statLe a.2 y.2 := by
              rw [he]
              exact haR.1
            exact statLe_antisymm hya.1 hay2
          · exact hall x (by simp [hx''])
    · have hunf : maxFoldDay a (y :: rest) = maxFoldDay y rest := by
        simp [maxFoldDay, List.foldl_cons, hlt]
      have hp' : List.Pairwise (fun p q : ℤ × DayStats => p.1 < q.1) (y :: rest) :=
        (List.pairwise_cons.mp hp).2
      obtain ⟨hmem, hall⟩ := ih y hp'
      have hay : statLe a.2 y.2 := (not_cmp_lt_iff _ _).mp hlt
      rw [hunf]
      constructor
      · rcases List.mem_cons.mp hmem with h1 | h1
        · simp [h1]
        · simp [h1]
      · intro x hx
        rcases List.mem_cons.mp hx with hxa | hx'
        · rw [hxa]
          have hyR := hall y (by simp)
          refine ⟨statLe_trans hay hyR.1, ?_⟩
          intro he
          have hy2 : y.2 = (maxFoldDay y rest).2 := by
            refine statLe_antisymm hyR.1 ?_
            rw [← he]
            exact hay
          have := hyR.2 hy2
          omega
        · exact hall x hx'

theorem updateDay_cons_lt {d d0 : ℤ} {s0 : DayStats} {rest : List (ℤ × DayStats)}
    (b : Bool) (h : d < d0) :
    updateDay d b ((d0, s0) :: rest)
      = (d, ⟨1, if b then 1 else 0⟩) :: (d0, s0) :: rest := by
  simp only [updateDay]
  rw [if_pos h]

theorem updateDay_cons_eq {d d0 : ℤ} {s0 : DayStats} {rest : List (ℤ × DayStats)}
    (b : Bool) (h1 : ¬d < d0) (h2 : d = d0) :
    updateDay d b ((d0, s0) :: rest)
      = (d0, ⟨s0.total_commits + 1, s0.after_hours_commits + if b then 1 else 0⟩) :: rest := by
  simp only [updateDay]
  rw [if_neg h1, if_pos h2]

theorem updateDay_cons_gt {d d0 : ℤ} {s0 : DayStats} {rest : List (ℤ × DayStats)}
    (b : Bool) (h1 : ¬d < d0) (h2 : ¬d = d0) :
    updateDay d b ((d0, s0) :: rest) = (d0, s0) :: updateDay d b rest := by
  simp only [updateDay]
  rw [if_neg h1, if_neg h2]

theorem updateDay_keys (d : ℤ) (b : Bool) : ∀ m : List (ℤ × DayStats),
    ∀ p ∈ updateDay d b m, p.1 = d ∨ p ∈ m := by
  intro m
  induction m with
  | nil =>
    intro p hp
    simp only [updateDay, List.mem_singleton] at hp
    subst hp
    exact Or.inl rfl
  | cons q rest ih =>
    obtain ⟨d0, s0⟩ := q
    intro p hp
    by_cases h1 : d < d0
    · rw [updateDay_cons_lt b h1] at hp
      rcases List.mem_cons.mp hp with h | h
      · subst h; exact Or.inl rfl
      · exact Or.inr h
    · by_cases h2 : d = d0
      · rw [updateDay_cons_eq b h1 h2] at hp
        rcases List.mem_cons.mp hp with h | h
        · subst h; exact Or.inl h2.symm
        · exact Or.inr (by simp [h])
      · rw [updateDay_cons_gt b h1 h2] at hp
        rcases List.mem_cons.mp hp with h | h
        · subst h; exact Or.inr (by simp)
        · rcases ih p h with h3 | h3
          · exact Or.inl h3
          · exact Or.inr (by simp [h3])

theorem updateDay_sorted (d : ℤ) (b : Bool) : ∀ m : List (ℤ × DayStats),
    List.Pairwise (fun p q : ℤ × DayStats => p.1 < q.1) m →
      List.Pairwise (fun p q : ℤ × DayStats => p.1 < q.1) (updateDay d b m) := by
  intro m
  induction m with
  | nil =>
    intro _
    simp [updateDay]
  | cons q rest ih =>
    obtain ⟨d0, s0⟩ := q
    intro h
    obtain ⟨h1, h2⟩ := List.pairwise_cons.mp h
    by_cases hc1 : d < d0
    · rw [updateDay_cons_lt b hc1]
      refine List.pairwise_cons.mpr ⟨?_, h⟩
      intro p hp
      rcases List.mem_cons.mp hp with h3 | h3
      · subst h3; exact hc1
      · exact lt_trans hc1 (h1 p h3)
    · by_cases hc2 : d = d0
      · rw [updateDay_cons_eq b hc1 hc2]
        exact List.pairwise_cons.mpr ⟨h1, h2⟩
      · rw [updateDay_cons_gt b hc1 hc2]
        refine List.pairwise_cons.mpr ⟨?_, ih h2⟩
        intro p hp
        rcases updateDay_keys d b rest p hp with h3 | h3
        · rw [h3]; omega
        · exact h1 p h3

/-- `or_default` followed by the increments, as a function on the optional
previous binding. -/
def bumpDay (o : Option DayStats) (b : Bool) : DayStats :=
  match o with
  | none => ⟨1, if b then 1 else 0⟩
  | some s => ⟨s.total_commits + 1, s.after_hours_commits + if b then 1 else 0⟩

theorem lookup_eq_none_of_lt (d : ℤ) : ∀ m : List (ℤ × DayStats),
    (∀ p ∈ m, d < p.1) → List.lookup d m = none := by
  intro m
  induction m with
  | nil => intro _; rfl
  | cons q rest ih =>
    obtain ⟨d0, s0⟩ := q
    intro h
    have hd : d ≠ d0 := ne_of_lt (h (d0, s0) (by simp))
    simp only [List.lookup, beq_eq_false_iff_ne.mpr hd]
    exact ih fun p hp => h p (by simp [hp])

theorem lookup_updateDay (dn : ℤ) (b : Bool) : ∀ m : List (ℤ × DayStats),
    List.Pairwise (fun p q : ℤ × DayStats => p.1 < q.1) m → ∀ d : ℤ,
      List.lookup d (updateDay dn b m)
        = if d = dn then some (bumpDay (List.lookup dn m) b) else List.lookup d m := by
  intro m
  induction m with
  | nil =>
    intro _ d
    by_cases hd : d = dn
    · subst hd
      simp [updateDay, List.lookup, bumpDay]
    · have hb : (d == dn) = false := beq_eq_false_iff_ne.mpr hd
      simp [updateDay, List.lookup, bumpDay, hd, hb]
  | cons q rest ih =>
    obtain ⟨d0, s0⟩ := q
    intro hs d
    obtain ⟨h1, h2⟩ := List.pairwise_cons.mp hs
    by_cases hc1 : dn < d0
    · rw [updateDay_cons_lt b hc1]
      have hnone : List.lookup dn ((d0, s0) :: rest) = none := by
        refine lookup_eq_none_of_lt dn _ ?_
        intro p hp
        rcases List.mem_cons.mp hp with h | h
        · rw [h]; exact hc1
        · exact lt_trans hc1 (h1 p h)
      rw [hnone]
      by_cases hd : d = dn
      · subst hd
        simp [List.lookup, bumpDay]
      · have : (d == dn) = false := beq_eq_false_iff_ne.mpr hd
        simp [List.lookup, this, hd]
    · by_cases hc2 : dn = d0
      · rw [updateDay_cons_eq b hc1 hc2]
        subst hc2
        by_cases hd : d = dn
        · subst hd
          simp [List.lookup, bumpDay]
        · have : (d == dn) = false := beq_eq_false_iff_ne.mpr hd
          simp [List.lookup, this, hd]
      · rw [updateDay_cons_gt b hc1 hc2]
        by_cases hd : d = d0
        · subst hd
          rw [if_neg (fun h => hc2 h.symm)]
          simp [List.lookup]
        · have hbeq : (d == d0) = false := beq_eq_false_iff_ne.mpr hd
          simp only [List.lookup, hbeq, cond_false]
          rw [ih h2 d]
          by_cases hdn : d = dn
          · subst hdn
            rw [if_pos rfl, if_pos rfl]
            have hbeq0 : (d == d0) = false := beq_eq_false_iff_ne.mpr hd
            simp [List.lookup, hbeq0]
          · rw [if_neg hdn, if_neg hdn]

theorem mem_iff_lookup {d : ℤ} {s : DayStats} : ∀ m : List (ℤ × DayStats),
    List.Pairwise (fun p q : ℤ × DayStats => p.1 < q.1) m →
      ((d, s) ∈ m ↔ List.lookup d m = some s) := by
  intro m
  induction m with
  | nil => intro _; simp [List.lookup]
  | cons q rest ih =>
    obtain ⟨d0, s0⟩ := q
    intro hs
    obtain ⟨h1, h2⟩ := List.pairwise_cons.mp hs
    by_cases hd : d = d0
    · subst hd
      have hnot : (d, s) ∉ rest := by
        intro h
        exact absurd (h1 (d, s) h) (lt_irrefl d)
      simp only [List.mem_cons, List.lookup, beq_self_eq_true, if_true]
      constructor
      · intro h
        rcases h with h | h
        · simp [Prod.ext_iff] at h
          simp [h]
        · exact absurd h hnot
      · intro h
        left
        simp only [Option.some.injEq] at h
        simp [h]
    · have hbeq : (d == d0) = false := beq_eq_false_iff_ne.mpr hd
      simp only [List.mem_cons, List.lookup, hbeq]
      rw [← ih h2]
      constructor
      · intro h
        rcases h with h | h
        · exact absurd (congrArg Prod.fst h) hd
        · exact h
      · intro h
        exact Or.inr h

theorem foldCommits_day_sorted (cs : List Commit) :
    List.Pairwise (fun p q : ℤ × DayStats => p.1 < q.1) (foldCommits cs).day_stats := by
  have main : ∀ (l : List Commit) (st : FoldState),
      List.Pairwise (fun p q : ℤ × DayStats => p.1 < q.1) st.day_stats →
      List.Pairwise (fun p q : ℤ × DayStats => p.1 < q.1) (l.foldl foldStep st).day_stats := by
    intro l
    induction l with
    | nil => intro st h; simpa using h
    | cons c l ih =>
      intro st h
      rw [List.foldl_cons]
      exact ih _ (updateDay_sorted _ _ _ h)
  exact main cs initState (by simp [initState])

theorem foldCommits_append (cs : List Commit) (c : Commit) :
    foldCommits (cs ++ [c]) = foldStep (foldCommits cs) c := by
  unfold foldCommits
  rw [List.foldl_append]
  rfl

theorem dayTotal_append (cs : List Commit) (c : Commit) (d : ℤ) :
    dayTotal (cs ++ [c]) d = dayTotal cs d + if c.date = d then 1 else 0 := by
  unfold dayTotal
  rw [List.countP_append]
  by_cases h : c.date = d <;> simp [List.countP_cons, h]

theorem dayAfterHours_append (cs : List Commit) (c : Commit) (d : ℤ) :
    dayAfterHours (cs ++ [c]) d
      = dayAfterHours cs d
        + if c.date = d ∧ is_after_hours c.hour then 1 else 0 := by
  unfold dayAfterHours
  rw [List.countP_append]
  by_cases h : c.date = d <;> by_cases hb : is_after_hours c.hour <;>
    simp [List.countP_cons, h, hb]

theorem dayAfterHours_le_dayTotal (cs : List Commit) (d : ℤ) :
    dayAfterHours cs d ≤ dayTotal cs d := by
  unfold dayAfterHours dayTotal
  refine List.countP_mono_left ?_
  intro c _ h
  simp at h ⊢
  exact h.1

theorem lookup_dayMap (cs : List Commit) : ∀ d : ℤ,
    List.lookup d (foldCommits cs).day_stats
      = if 0 < dayTotal cs d then some ⟨dayTotal cs d, dayAfterHours cs d⟩ else none := by
  induction cs using List.reverseRecOn with
  | nil =>
    intro d
    simp [foldCommits, initState, dayTotal, dayAfterHours, List.lookup]
  | append_singleton cs c ih =>
    intro d
    rw [foldCommits_append]
    have hsort := foldCommits_day_sorted cs
    have hday : (foldStep (foldCommits cs) c).day_stats
        = updateDay c.date (is_after_hours c.hour) (foldCommits cs).day_stats := rfl
    rw [hday, lookup_updateDay _ _ _ hsort, dayTotal_append, dayAfterHours_append]
    by_cases hd : c.date = d
    · rw [if_pos hd.symm, hd, ih]
      by_cases h0 : 0 < dayTotal cs d
      · rw [if_pos h0]
        have h1 : (0 : ℕ) < dayTotal cs d + (if (d : ℤ) = d then 1 else 0) := by simp
        rw [if_pos h1]
        by_cases hb : is_after_hours c.hour <;> simp [bumpDay, hb]
      · rw [if_neg h0]
        have ht0 : dayTotal cs d = 0 := by omega
        have ha0 : dayAfterHours cs d = 0 := by
          have := dayAfterHours_le_dayTotal cs d
          omega
        have h1 : (0 : ℕ) < dayTotal cs d + (if (d : ℤ) = d then 1 else 0) := by
          simp [ht0]
        rw [if_pos h1]
        by_cases hb : is_after_hours c.hour <;> simp [bumpDay, hb, ht0, ha0]
    · have hd2 : ¬ d = c.date := fun h => hd h.symm
      rw [if_neg hd2, ih]
      simp [hd]

theorem dayMap_nil_iff (cs : List Commit) : (foldCommits cs).day_stats = [] ↔ cs = [] := by
  constructor
  · intro h
    by_contra hcs
    exact foldCommits_day_ne_nil cs hcs h
  · intro h
    subst h
    rfl

theorem dayTotal_pos_iff (cs : List Commit) (d : ℤ) :
    0 < dayTotal cs d ↔ ∃ c ∈ cs, c.date = d := by
  unfold dayTotal
  rw [List.countP_pos]
  simp

theorem mem_dayMap_iff (cs : List Commit) (d : ℤ) (s : DayStats) :
    ((d, s) ∈ (foldCommits cs).day_stats) ↔
      (0 < dayTotal cs d ∧ s = ⟨dayTotal cs d, dayAfterHours cs d⟩) := by
  rw [mem_iff_lookup _ (foldCommits_day_sorted cs), lookup_dayMap]
  by_cases h0 : 0 < dayTotal cs d
  · rw [if_pos h0]
    simp [h0, eq_comm]
  · rw [if_neg h0]
    simp [h0]

theorem busiest_core (cs : List Commit) (m : ℤ × DayStats)
    (hm : maxByRust (fun p q => cmpDayStats p.2 q.2) (foldCommits cs).day_stats = some m) :
    m ∈ (foldCommits cs).day_stats ∧
      ∀ x ∈ (foldCommits cs).day_stats, statLe x.2 m.2 ∧ (x.2 = m.2 → x.1 ≤ m.1) := by
  cases hds : (foldCommits cs).day_stats with
  | nil =>
    rw [hds] at hm
    exact absurd hm (by simp [maxByRust])
  | cons a rest =>
    rw [hds] at hm
    rw [maxByRust_cons] at hm
    have hmm := Option.some.inj hm
    subst hmm
    have hsort := foldCommits_day_sorted cs
    rw [hds] at hsort
    exact maxFoldDay_spec rest a hsort

theorem cm_busiest (rp : String) (cs : List Commit) (ig : List String)
    (al : List (String × String)) :
    (compute_metrics rp cs ig al).busiest_day
      = (maxByRust (fun p q => cmpDayStats p.2 q.2) (foldCommits cs).day_stats).map
          (fun e => BusiestDay.mk e.1 e.2.total_commits e.2.after_hours_commits) := rfl

/-- Claim C7: `busiest_day` is `none` exactly when there are no retained
commits; otherwise it names a date with at least one commit, carries that
date's total and after-hours counts, and among all commit dates maximises
`total_commits` with ties broken by maximising `after_hours_commits`. -/
theorem busiest_day_spec (rp : String) (cs : List Commit) (ig : List String)
    (al : List (String × String)) :
    ((compute_metrics rp cs ig al).busiest_day = none ↔ cs = []) ∧
    (∀ b : BusiestDay, (compute_metrics rp cs ig al).busiest_day = some b →
      (∃ c ∈ cs, c.date = b.date) ∧
      b.total_commits = dayTotal cs b.date ∧
      b.after_hours_commits = dayAfterHours cs b.date ∧
      ∀ d : ℤ, (∃ c ∈ cs, c.date = d) →
        dayTotal cs d < b.total_commits ∨
          (dayTotal cs d = b.total_commits ∧
            dayAfterHours cs d ≤ b.after_hours_commits)) := by
  constructor
  · rw [cm_busiest]
    cases hds : (foldCommits cs).day_stats with
    | nil =>
      simp only [maxByRust, Option.map_none']
      exact ⟨fun _ => (dayMap_nil_iff cs).mp hds, fun _ => trivial⟩
    | cons a rest =>
      rw [maxByRust_cons]
      simp only [Option.map_some']
      constructor
      · intro h
        cases h
      · intro h
        subst h
        exact absurd hds (by simp [foldCommits, initState])
  · intro b hb
    rw [cm_busiest] at hb
    rcases hmax : maxByRust (fun p q => cmpDayStats p.2 q.2) (foldCommits cs).day_stats with
      _ | m
    · rw [hmax] at hb
      cases hb
    · rw [hmax] at hb
      simp only [Option.map_some', Option.some.injEq] at hb
      obtain ⟨hmem, hall⟩ := busiest_core cs m hmax
      have hmm : (m.1, m.2) ∈ (foldCommits cs).day_stats := by simpa using hmem
      obtain ⟨h0, hm2⟩ := (mem_dayMap_iff cs m.1 m.2).mp hmm
      subst hb
      refine ⟨(dayTotal_pos_iff cs m.1).mp h0, ?_, ?_, ?_⟩
      · show m.2.total_commits = dayTotal cs m.1
        rw [hm2]
      · show m.2.after_hours_commits = dayAfterHours cs m.1
        rw [hm2]
      · intro d hdc
        have h0d : 0 < dayTotal cs d := (dayTotal_pos_iff cs d).mpr hdc
        have hmemd : ((d, (⟨dayTotal cs d, dayAfterHours cs d⟩ : DayStats)))
            ∈ (foldCommits cs).day_stats := (mem_dayMap_iff cs d _).mpr ⟨h0d, rfl⟩
        have hle := (hall _ hmemd).1
        have : statLe ⟨dayTotal cs d, dayAfterHours cs d⟩ m.2 := hle
        unfold statLe at this
        exact this

/-- Witness for C7 at a concrete two-commit input. -/
theorem busiest_day_spec_witness :
    (compute_metrics "p" [⟨"a", 0, 12, 0⟩, ⟨"b", 0, 19, 1⟩] [] []).busiest_day
        = some ⟨0, 2, 1⟩ ∧
      ((∃ c ∈ ([⟨"a", 0, 12, 0⟩, ⟨"b", 0, 19, 1⟩] : List Commit), c.date = (0 : ℤ)) ∧
        (2 : ℕ) = dayTotal [⟨"a", 0, 12, 0⟩, ⟨"b", 0, 19, 1⟩] 0 ∧
        (1 : ℕ) = dayAfterHours [⟨"a", 0, 12, 0⟩, ⟨"b", 0, 19, 1⟩] 0 ∧
        ∀ d : ℤ, (∃ c ∈ ([⟨"a", 0, 12, 0⟩, ⟨"b", 0, 19, 1⟩] : List Commit), c.date = d) →
          dayTotal [⟨"a", 0, 12, 0⟩, ⟨"b", 0, 19, 1⟩] d < 2 ∨
            (dayTotal [⟨"a", 0, 12, 0⟩, ⟨"b", 0, 19, 1⟩] d = 2 ∧
              dayAfterHours [⟨"a", 0, 12, 0⟩, ⟨"b", 0, 19, 1⟩] d ≤ 1)) :=
  ⟨by decide,
    (busiest_day_spec "p" [⟨"a", 0, 12, 0⟩, ⟨"b", 0, 19, 1⟩] [] []).2 ⟨0, 2, 1⟩ (by decide)⟩

/-- Claim C10: when several dates tie on both `total_commits` and
`after_hours_commits`, `busiest_day` deterministically selects the latest
(greatest) such calendar date: the maximum is taken over the day map in
ascending date order and a later entry that compares equal replaces an
earlier one. -/
theorem busiest_day_tiebreak (rp : String) (cs : List Commit) (ig : List String)
    (al : List (String × String)) (b : BusiestDay) (d : ℤ)
    (hb : (compute_metrics rp cs ig al).busiest_day = some b)
    (hdc : ∃ c ∈ cs, c.date = d)
    (ht : dayTotal cs d = b.total_commits)
    (ha : dayAfterHours cs d = b.after_hours_commits) :
    d ≤ b.date := by
  rw [cm_busiest] at hb
  rcases hmax : maxByRust (fun p q => cmpDayStats p.2 q.2) (foldCommits cs).day_stats with
    _ | m
  · rw [hmax] at hb
    cases hb
  · rw [hmax] at hb
    simp only [Option.map_some', Option.some.injEq] at hb
    obtain ⟨hmem, hall⟩ := busiest_core cs m hmax
    have h0d : 0 < dayTotal cs d := (dayTotal_pos_iff cs d).mpr hdc
    have hmemd : ((d, (⟨dayTotal cs d, dayAfterHours cs d⟩ : DayStats)))
        ∈ (foldCommits cs).day_stats := (mem_dayMap_iff cs d _).mpr ⟨h0d, rfl⟩
    have hb_total : b.total_commits = m.2.total_commits := by rw [← hb]
    have hb_ah : b.after_hours_commits = m.2.after_hours_commits := by rw [← hb]
    have hb_date : b.date = m.1 := by rw [← hb]
    have heq : (⟨dayTotal cs d, dayAfterHours cs d⟩ : DayStats) = m.2 := by
      cases m2 : m.2
      simp only [DayStats.mk.injEq]
      rw [m2] at hb_total hb_ah
      simp at hb_total hb_ah
      omega
    have := (hall _ hmemd).2 heq
    rw [hb_date]
    exact this

/-- Witness for C10: two dates tied on both counters; the later date 1 is
selected, and in particular the tied earlier date 0 satisfies `0 ≤ 1`. -/
theorem busiest_day_tiebreak_witness :
    (compute_metrics "p" [⟨"a", 0, 12, 0⟩, ⟨"a", 1, 12, 1⟩] [] []).busiest_day
        = some ⟨1, 1, 0⟩ ∧
      (∃ c ∈ ([⟨"a", 0, 12, 0⟩, ⟨"a", 1, 12, 1⟩] : List Commit), c.date = (0 : ℤ)) ∧
      dayTotal [⟨"a", 0, 12, 0⟩, ⟨"a", 1, 12, 1⟩] 0 = 1 ∧
      dayAfterHours [⟨"a", 0, 12, 0⟩, ⟨"a", 1, 12, 1⟩] 0 = 0 ∧
      (0 : ℤ) ≤ (1 : ℤ) :=
  ⟨by decide, by decide, by decide, by decide,
    busiest_day_tiebreak "p" [⟨"a", 0, 12, 0⟩, ⟨"a", 1, 12, 1⟩] [] [] ⟨1, 1, 0⟩ 0
      (by decide) (by decide) (by decide) (by decide)⟩

/-! ### Ranked-list lemmas (claim C8) -/

theorem nightowlCmp_not_gt (a b : AuthorSummary) :
    (nightowlCmp a b ≠ .gt) ↔ nightowlRel a b := by
  unfold nightowlCmp nightowlRel
  rw [Ne, then_eq_gt, cmpQ_gt_iff, cmpQ_eq_iff, cmpNat_gt_iff]
  constructor
  · intro h
    push_neg at h
    obtain ⟨h1, h2⟩ := h
    rcases lt_or_eq_of_le h1 with hlt | heq
    · exact Or.inl hlt
    · exact Or.inr ⟨heq.symm, h2 heq⟩
  · intro h
    rcases h with h | ⟨h1, h2⟩
    · rintro (hc | ⟨hc1, hc2⟩)
      · exact lt_asymm h hc
      · rw [hc1] at h
        exact lt_irrefl _ h
    · rintro (hc | ⟨hc1, hc2⟩)
      · rw [h1] at hc
        exact lt_irrefl _ hc
      · omega

theorem chillCmp_not_gt (a b : AuthorSummary) :
    (chillCmp a b ≠ .gt) ↔ chillRel a b := by
  unfold chillCmp chillRel
  rw [Ne, then_eq_gt, cmpQ_gt_iff, cmpQ_eq_iff, cmpNat_gt_iff]
  constructor
  · intro h
    push_neg at h
    obtain ⟨h1, h2⟩ := h
    rcases lt_or_eq_of_le h1 with hlt | heq
    · exact Or.inl hlt
    · exact Or.inr ⟨heq, h2 heq⟩
  · intro h
    rcases h with h | ⟨h1, h2⟩
    · rintro (hc | ⟨hc1, hc2⟩)
      · exact lt_asymm h hc
      · rw [hc1] at h
        exact lt_irrefl _ h
    · rintro (hc | ⟨hc1, hc2⟩)
      · rw [h1] at hc
        exact lt_irrefl _ hc
      · omega

theorem nightowlRel_trans {a b c : AuthorSummary} (h1 : nightowlRel a b)
    (h2 : nightowlRel b c) : nightowlRel a c := by
  unfold nightowlRel at *
  rcases h1 with h1 | ⟨h1a, h1b⟩ <;> rcases h2 with h2 | ⟨h2a, h2b⟩
  · exact Or.inl (lt_trans h2 h1)
  · rw [h2a] at h1
    exact Or.inl h1
  · rw [h1a]
    exact Or.inl h2
  · exact Or.inr ⟨h1a.trans h2a, le_trans h2b h1b⟩

theorem nightowlRel_total (a b : AuthorSummary) : nightowlRel a b ∨ nightowlRel b a := by
  unfold nightowlRel
  rcases lt_trichotomy a.after_hours_ratio b.after_hours_ratio with h | h | h
  · exact Or.inr (Or.inl h)
  · rcases le_total a.after_hours_commits b.after_hours_commits with hn | hn
    · exact Or.inr (Or.inr ⟨h.symm, hn⟩)
    · exact Or.inl (Or.inr ⟨h, hn⟩)
  · exact Or.inl (Or.inl h)

theorem chillRel_trans {a b c : AuthorSummary} (h1 : chillRel a b)
    (h2 : chillRel b c) : chillRel a c := by
  unfold chillRel at *
  rcases h1 with h1 | ⟨h1a, h1b⟩ <;> rcases h2 with h2 | ⟨h2a, h2b⟩
  · exact Or.inl (lt_trans h1 h2)
  · rw [h2a] at h1
    exact Or.inl h1
  · rw [← h1a] at h2
    exact Or.inl h2
  · exact Or.inr ⟨h1a.trans h2a, le_trans h2b h1b⟩

theorem chillRel_total (a b : AuthorSummary) : chillRel a b ∨ chillRel b a := by
  unfold chillRel
  rcases lt_trichotomy a.after_hours_ratio b.after_hours_ratio with h | h | h
  · exact Or.inl (Or.inl h)
  · rcases le_total a.total_commits b.total_commits with hn | hn
    · exact Or.inr (Or.inr ⟨h.symm, hn⟩)
    · exact Or.inl (Or.inr ⟨h, hn⟩)
  · exact Or.inr (Or.inl h)

theorem sortByCmp_sorted_nightowl (l : List AuthorSummary) :
    List.Sorted nightowlRel (sortByCmp nightowlCmp l) := by
  unfold sortByCmp
  haveI : IsTotal AuthorSummary (fun a b => nightowlCmp a b ≠ Ordering.gt) :=
    ⟨fun a b => by
      rw [nightowlCmp_not_gt, nightowlCmp_not_gt]
      exact nightowlRel_total a b⟩
  haveI : IsTrans AuthorSummary (fun a b => nightowlCmp a b ≠ Ordering.gt) :=
    ⟨fun a b c h1 h2 => by
      rw [nightowlCmp_not_gt] at h1 h2 ⊢
      exact nightowlRel_trans h1 h2⟩
  have hs := List.sorted_insertionSort (fun a b => nightowlCmp a b ≠ Ordering.gt) l
  exact List.Pairwise.imp (fun h => (nightowlCmp_not_gt _ _).mp h) hs

theorem sortByCmp_sorted_chill (l : List AuthorSummary) :
    List.Sorted chillRel (sortByCmp chillCmp l) := by
  unfold sortByCmp
  haveI : IsTotal AuthorSummary (fun a b => chillCmp a b ≠ Ordering.gt) :=
    ⟨fun a b => by
      rw [chillCmp_not_gt, chillCmp_not_gt]
      exact chillRel_total a b⟩
  haveI : IsTrans AuthorSummary (fun a b => chillCmp a b ≠ Ordering.gt) :=
    ⟨fun a b c h1 h2 => by
      rw [chillCmp_not_gt] at h1 h2 ⊢
      exact chillRel_trans h1 h2⟩
  have hs := List.sorted_insertionSort (fun a b => chillCmp a b ≠ Ordering.gt) l
  exact List.Pairwise.imp (fun h => (chillCmp_not_gt _ _).mp h) hs

/-- Claim C8: the night-owl list is sorted by `after_hours_ratio` descending
with ties broken by `after_hours_commits` descending, the chill list by
`after_hours_ratio` ascending with ties broken by `total_commits`
descending; both are truncations to the first 3 of the sorted author
summaries, hence have length at most 3 and consist of author summaries. -/
theorem ranked_lists_spec (rp : String) (cs : List Commit) (ig : List String)
    (al : List (String × String)) :
    List.Sorted nightowlRel (compute_metrics rp cs ig al).top_after_hours_authors ∧
    List.Sorted chillRel (compute_metrics rp cs ig al).chill_authors ∧
    (compute_metrics rp cs ig al).top_after_hours_authors.length ≤ 3 ∧
    (compute_metrics rp cs ig al).chill_authors.length ≤ 3 ∧
    (compute_metrics rp cs ig al).top_after_hours_authors ⊆ authorSummaries cs ∧
    (compute_metrics rp cs ig al).chill_authors ⊆ authorSummaries cs := by
  rw [cm_top, cm_chill]
  refine ⟨?_, ?_, ?_, ?_, ?_, ?_⟩
  · exact List.Pairwise.sublist (List.take_sublist _ _) (sortByCmp_sorted_nightowl _)
  · exact List.Pairwise.sublist (List.take_sublist _ _) (sortByCmp_sorted_chill _)
  · exact List.length_take_le _ _
  · exact List.length_take_le _ _
  · exact take_sortByCmp_subset _ _ _
  · exact take_sortByCmp_subset _ _ _

unseal Rat.mul Rat.inv in
/-- Witness for C8 at a concrete two-author input, exercising the subset
clause on an actual ranked-list entry. -/
theorem ranked_lists_spec_witness :
    (⟨"b", 1, 1, 0, 0, 1⟩ : AuthorSummary)
        ∈ (compute_metrics "p" [⟨"a", 0, 12, 0⟩, ⟨"b", 0, 19, 1⟩] [] []).top_after_hours_authors ∧
      (⟨"b", 1, 1, 0, 0, 1⟩ : AuthorSummary)
        ∈ authorSummaries [⟨"a", 0, 12, 0⟩, ⟨"b", 0, 19, 1⟩] :=
  ⟨by decide,
    (ranked_lists_spec "p" [⟨"a", 0, 12, 0⟩, ⟨"b", 0, 19, 1⟩] [] []).2.2.2.2.1 (by decide)⟩

/-! ### Alias rewriting (claim C2) -/

unseal Rat.mul Rat.inv in
/-- Claim C2: a retained commit whose raw author is a key of the alias map is
aggregated under `alias_map[raw_author]`, every other retained commit under
its verbatim author; in the spec's S6 scenario (commits by `alice` and
`Alice Smith`, alias `alice=Alice Smith`) the metrics contain exactly one
unique author whose counters are the sums over both names. -/
theorem alias_rewrite_spec :
    (∀ (amap : List (String × String)) (cs : List Commit) (c : Commit), c ∈ cs →
      (∀ t0 : String, List.lookup c.author amap = some t0 →
        { c with author := t0 } ∈ rewriteCommits amap cs) ∧
      (List.lookup c.author amap = none → c ∈ rewriteCommits amap cs)) ∧
    (compute_metrics "p" (rewriteCommits [("alice", "Alice Smith")]
        [⟨"alice", 0, 12, 100⟩, ⟨"Alice Smith", 2, 2, 200⟩]) []
        [("alice", "Alice Smith")]).unique_authors = 1 ∧
    (compute_metrics "p" (rewriteCommits [("alice", "Alice Smith")]
        [⟨"alice", 0, 12, 100⟩, ⟨"Alice Smith", 2, 2, 200⟩]) []
        [("alice", "Alice Smith")]).top_after_hours_authors
      = [⟨"Alice Smith", 2, 1, 1, 1, 1 / 2⟩] := by
  refine ⟨?_, by decide, by decide⟩
  intro amap cs c hc
  constructor
  · intro t0 ht
    unfold rewriteCommits
    refine List.mem_map.mpr ⟨c, hc, ?_⟩
    rw [ht]
    rfl
  · intro ht
    unfold rewriteCommits
    refine List.mem_map.mpr ⟨c, hc, ?_⟩
    rw [ht]
    rfl

/-- Witness for C2: the `alice` commit is aggregated as `Alice Smith`. -/
theorem alias_rewrite_spec_witness :
    (⟨"alice", 0, 12, 100⟩ : Commit)
        ∈ ([⟨"alice", 0, 12, 100⟩, ⟨"Alice Smith", 2, 2, 200⟩] : List Commit) ∧
      List.lookup "alice" [("alice", "Alice Smith")] = some "Alice Smith" ∧
      (⟨"Alice Smith", 0, 12, 100⟩ : Commit)
        ∈ rewriteCommits [("alice", "Alice Smith")]
            [⟨"alice", 0, 12, 100⟩, ⟨"Alice Smith", 2, 2, 200⟩] :=
  ⟨by decide, by decide,
    (alias_rewrite_spec.1 [("alice", "Alice Smith")]
      [⟨"alice", 0, 12, 100⟩, ⟨"Alice Smith", 2, 2, 200⟩]
      ⟨"alice", 0, 12, 100⟩ (by decide)).1 "Alice Smith" (by decide)⟩

/-! ### Alias parsing (claim C3) -/

/-- A raw alias entry's trimmed rule, when the entry is well-formed
(spec 4.1: of the form `LHS=RHS` with nonempty trimmed sides). -/
def trimmedRule (e : List Char) : Option (List Char × List Char) :=
  match splitFirstEq e with
  | none => none
  | some (lhs, rhs) =>
    let f := rustTrim lhs
    let t := rustTrim rhs
    if f = [] ∨ t = [] then none else some (f, t)

/-- The `to` of the last raw entry whose trimmed `from` side is `k`. -/
def lastAliasTo (k : List Char) (raw : List (List Char)) : Option (List Char) :=
  raw.reverse.findSome? (fun e =>
    match trimmedRule e with
    | some p => if p.1 = k then some p.2 else none
    | none => none)

theorem insertAssoc_lookup (f t : List Char) : ∀ (m : List (List Char × List Char))
    (k : List Char),
    List.lookup k (insertAssoc f t m) = if k = f then some t else List.lookup k m := by
  intro m
  induction m with
  | nil =>
    intro k
    by_cases hk : k = f
    · subst hk
      simp [insertAssoc, List.lookup]
    · have hb : (k == f) = false := beq_eq_false_iff_ne.mpr hk
      simp [insertAssoc, List.lookup, hb, hk]
  | cons q rest ih =>
    obtain ⟨k0, v0⟩ := q
    intro k
    by_cases hf : f = k0
    · subst hf
      simp only [insertAssoc, if_pos rfl]
      by_cases hk : k = f
      · subst hk
        simp [List.lookup]
      · have hb : (k == f) = false := beq_eq_false_iff_ne.mpr hk
        simp [List.lookup, hb, hk]
    · simp only [insertAssoc, if_neg hf]
      by_cases hk0 : k = k0
      · subst hk0
        have hkf : ¬k = f := fun h => hf (h ▸ rfl)
        simp [List.lookup, hkf]
      · have hb : (k == k0) = false := beq_eq_false_iff_ne.mpr hk0
        simp only [List.lookup, hb, cond_false]
        exact ih k

theorem insertAssoc_keys (f t : List Char) : ∀ m : List (List Char × List Char),
    ∀ p ∈ insertAssoc f t m, p.1 = f ∨ p ∈ m := by
  intro m
  induction m with
  | nil =>
    intro p hp
    simp only [insertAssoc, List.mem_singleton] at hp
    subst hp
    exact Or.inl rfl
  | cons q rest ih =>
    obtain ⟨k0, v0⟩ := q
    intro p hp
    by_cases hf : f = k0
    · rw [show insertAssoc f t ((k0, v0) :: rest) = (f, t) :: rest by
        simp only [insertAssoc, if_pos hf]] at hp
      rcases List.mem_cons.mp hp with h | h
      · subst h; exact Or.inl rfl
      · exact Or.inr (by simp [h])
    · rw [show insertAssoc f t ((k0, v0) :: rest) = (k0, v0) :: insertAssoc f t rest by
        simp only [insertAssoc, if_neg hf]] at hp
      rcases List.mem_cons.mp hp with h | h
      · subst h; exact Or.inr (by simp)
      · rcases ih p h with h2 | h2
        · exact Or.inl h2
        · exact Or.inr (by simp [h2])

theorem insertAssoc_nodup (f t : List Char) : ∀ m : List (List Char × List Char),
    List.Pairwise (fun p q : List Char × List Char => p.1 ≠ q.1) m →
      List.Pairwise (fun p q : List Char × List Char => p.1 ≠ q.1) (insertAssoc f t m) := by
  intro m
  induction m with
  | nil =>
    intro _
    simp [insertAssoc]
  | cons q rest ih =>
    obtain ⟨k0, v0⟩ := q
    intro h
    obtain ⟨h1, h2⟩ := List.pairwise_cons.mp h
    by_cases hf : f = k0
    · rw [show insertAssoc f t ((k0, v0) :: rest) = (f, t) :: rest by
        simp only [insertAssoc, if_pos hf]]
      refine List.pairwise_cons.mpr ⟨?_, h2⟩
      intro p hp
      rw [hf]
      exact h1 p hp
    · rw [show insertAssoc f t ((k0, v0) :: rest) = (k0, v0) :: insertAssoc f t rest by
        simp only [insertAssoc, if_neg hf]]
      refine List.pairwise_cons.mpr ⟨?_, ih h2⟩
      intro p hp
      rcases insertAssoc_keys f t rest p hp with h3 | h3
      · rw [h3]
        exact fun h4 => hf h4.symm
      · exact h1 p h3

theorem parseAliasesGo_ok : ∀ (es : List (List Char))
    (m0 m : List (List Char × List Char)), parseAliasesGo m0 es = .ok m →
    (List.Pairwise (fun p q : List Char × List Char => p.1 ≠ q.1) m0 →
      List.Pairwise (fun p q : List Char × List Char => p.1 ≠ q.1) m) ∧
    ∀ k, List.lookup k m = (lastAliasTo k es).or (List.lookup k m0) := by
  intro es
  induction es with
  | nil =>
    intro m0 m h
    simp only [parseAliasesGo, Except.ok.injEq] at h
    subst h
    refine ⟨id, ?_⟩
    intro k
    simp [lastAliasTo]
  | cons e rest ih =>
    intro m0 m h
    simp only [parseAliasesGo] at h
    rcases hsp : splitFirstEq e with _ | ⟨lhs, rhs⟩
    · rw [hsp] at h
      cases h
    · rw [hsp] at h
      have h2 : (if rustTrim lhs = [] ∨ rustTrim rhs = []
          then (Except.error "别名参数不能为空" : Except String (List (List Char × List Char)))
          else parseAliasesGo (insertAssoc (rustTrim lhs) (rustTrim rhs) m0) rest)
          = .ok m := h
      by_cases hempty : rustTrim lhs = [] ∨ rustTrim rhs = []
      · rw [if_pos hempty] at h2
        cases h2
      · rw [if_neg hempty] at h2
        obtain ⟨hnd, hlk⟩ := ih (insertAssoc (rustTrim lhs) (rustTrim rhs) m0) m h2
        have htr : trimmedRule e = some (rustTrim lhs, rustTrim rhs) := by
          unfold trimmedRule
          rw [hsp]
          simp only [if_neg hempty]
        constructor
        · intro h0
          exact hnd (insertAssoc_nodup _ _ _ h0)
        · intro k
          rw [hlk k, insertAssoc_lookup]
          have hlast : lastAliasTo k (e :: rest)
              = (lastAliasTo k rest).or
                  (if rustTrim lhs = k then some (rustTrim rhs) else none) := by
            unfold lastAliasTo
            rw [List.reverse_cons, List.findSome?_append]
            congr 1
            simp only [List.findSome?, htr]
            by_cases hk2 : rustTrim lhs = k <;> simp [hk2]
          rw [hlast]
          cases hA : lastAliasTo k rest
          · simp only [Option.or]
            by_cases hk : k = rustTrim lhs
            · simp [hk]
            · have hk2 : ¬rustTrim lhs = k := fun h2 => hk h2.symm
              simp [hk, hk2, Option.or]
          · simp [Option.or]

/-- Counterexample to claim C3: two raw entries with the same trimmed `from`
are accepted, not rejected — `parse_aliases` returns a map in which the
later entry has overwritten the earlier one. -/
theorem parse_aliases_dup_accepted :
    parse_aliases [String.toList "a=b", String.toList "a=c"]
      = Except.ok [(String.toList "a", String.toList "c")] := rfl

/-- Claim C3 (amended): duplicate trimmed `from` sides are not an error;
whenever `parse_aliases` succeeds, the effective map is deduplicated on
`from` (keys pairwise distinct) and each `from` is bound to the `to` of the
last raw entry carrying it — later duplicates silently overwrite earlier
ones. -/
theorem parse_aliases_amended (raw : List (List Char))
    (m : List (List Char × List Char)) (h : parse_aliases raw = .ok m) :
    List.Pairwise (fun p q : List Char × List Char => p.1 ≠ q.1) m ∧
    ∀ k, List.lookup k m = lastAliasTo k raw := by
  obtain ⟨hnd, hlk⟩ := parseAliasesGo_ok raw [] m h
  refine ⟨hnd (by simp), ?_⟩
  intro k
  rw [hlk k]
  cases hA : lastAliasTo k raw <;> simp [Option.or, List.lookup]

/-- Witness for C3's amended claim at the duplicate-`from` input. -/
theorem parse_aliases_amended_witness :
    List.lookup (String.toList "a") [(String.toList "a", String.toList "c")]
      = lastAliasTo (String.toList "a") [String.toList "a=b", String.toList "a=c"] :=
  (parse_aliases_amended [String.toList "a=b", String.toList "a=c"]
    [(String.toList "a", String.toList "c")] rfl).2 (String.toList "a")

/-! ### Time-filter lemmas (claim C4) -/

theorem head_minus_not_digit {l : List Char} (h : l.head? = some '-') :
    l.all Char.isDigit = false := by
  cases l with
  | nil => cases h
  | cons c r =>
    simp only [List.head?_cons, Option.some.injEq] at h
    subst h
    simp [List.all_cons]

end CowHorse
